import Mathlib

/-!
Shallow embedding of the text-layout engine of `fontster` (`src/layout.rs`).

Floating-point (`f32`) quantities are modelled as exact rationals `ℚ`: every
claim under study is algebraic (max/min/addition/halving on small values), and
the source performs the same operation sequence the embedding does.  `i32` and
`usize` glyph-metric fields are modelled as `Int` and `Nat`.

The external font-metrics provider (the `fontdue::Font` methods the engine
calls) is modelled as a structure of functions.  A Rust panic — the
`.unwrap()` on `horizontal_line_metrics`, the `fonts[i]` index, and the
`self.lines.last_mut().unwrap()` — is modelled by `Option`: `none` means the
call panics and returns no layout.
-/

namespace Fontster

/-- Per-glyph metrics, as returned by the provider for `(char, size)`:
`fontdue::Metrics` fields used by the engine. -/
structure Metrics where
  xmin : Int
  ymin : Int
  width : Nat
  height : Nat
  advance_width : ℚ
deriving DecidableEq

/-- Size-scaled horizontal line metrics of a font. -/
structure LineMetrics where
  ascent : ℚ
  descent : ℚ
  line_gap : ℚ
deriving DecidableEq

/-- The font-metrics provider: the three `fontdue::Font` methods the engine
calls.  `horizontal_line_metrics` is fallible (the source unwraps it);
`horizontal_kern` is optional per pair. -/
structure Font where
  metrics : Char → ℚ → Metrics
  horizontal_line_metrics : ℚ → Option LineMetrics
  horizontal_kern : Char → Char → ℚ → Option ℚ

/-- `char::is_control` of Rust: the Unicode `Cc` category,
`U+0000..U+001F` and `U+007F..U+009F`. -/
def charIsControl (c : Char) : Bool :=
  c.val ≤ 0x1f || (0x7f ≤ c.val && c.val ≤ 0x9f)

/-- A positioned glyph (`GlyphPosition<U>`). -/
structure GlyphPosition (U : Type) where
  c : Char
  x : ℚ
  y : ℚ
  width : Nat
  height : Nat
  font_index : Nat
  font_size : ℚ
  user : U
deriving DecidableEq

inductive HorizontalAlign where
  | Left
  | Center
  | Right
deriving DecidableEq

/-- The line-height policy (`LineHeight`): `Font` is the spec's `FontDefault`,
`Smallest` is the spec's `TightFit`. -/
inductive LineHeight where
  | Font
  | Ratio (r : ℚ)
  | Smallest (r : ℚ)
deriving DecidableEq

structure LayoutSettings where
  horizontal_align : HorizontalAlign
  line_height : LineHeight
deriving DecidableEq

/-- A line of text; glyph positions are relative to the line until
`Layout.glyphs`. -/
structure Line (U : Type) where
  width : ℚ
  gap : ℚ
  ascent : ℚ
  descent : ℚ
  glyphs : List (GlyphPosition U)
deriving DecidableEq

/-- `Line::height`: the height of this line including any gap. -/
def Line.height {U : Type} (l : Line U) : ℚ :=
  l.ascent - l.descent + l.gap

/-- `Line::default`. -/
def Line.default (U : Type) : Line U :=
  { width := 0, gap := 0, ascent := 0, descent := 0, glyphs := [] }

/-- One styled run (`StyledText<U>`); the text is its character sequence. -/
structure StyledText (U : Type) where
  text : List Char
  font_size : ℚ
  font_index : Nat
  user : U

structure Layout (U : Type) where
  settings : LayoutSettings
  lines : List (Line U)
deriving DecidableEq

/-- `Layout::new`. -/
def Layout.new {U : Type} (settings : LayoutSettings) : Layout U :=
  { settings := settings, lines := [Line.default U] }

/-- The per-run context of one `append` call once the font and its line
metrics have been resolved. -/
structure RunCtx (U : Type) where
  line_height : LineHeight
  font : Font
  font_index : Nat
  font_size : ℚ
  user : U
  lm : LineMetrics

/-- The body of `append`'s loop for one drawable (non-control) character:
update the line's ascent/descent per the policy, recompute the gap, compute
kerning against the line's last glyph, push the glyph with clamped x, and
advance the running width. -/
def appendGlyph {U : Type} (ctx : RunCtx U) (cur : Line U) (ch : Char) :
    Line U :=
  let m := ctx.font.metrics ch ctx.font_size
  let ascent :=
    match ctx.line_height with
    | .Smallest _ => max cur.ascent ((m.height : ℚ) + (m.ymin : ℚ))
    | _ => max cur.ascent ctx.lm.ascent
  let descent :=
    match ctx.line_height with
    | .Smallest _ => min cur.descent (m.ymin : ℚ)
    | _ => min cur.descent ctx.lm.descent
  let gap :=
    match ctx.line_height with
    | .Font => max cur.gap ctx.lm.line_gap
    | .Ratio r | .Smallest r =>
      let mn := ascent + descent
      max cur.gap (mn * r - mn)
  let kern :=
    match cur.glyphs.getLast? with
    | some last => (ctx.font.horizontal_kern last.c ch ctx.font_size).getD 0
    | none => 0
  { width := cur.width + m.advance_width
    gap := gap
    ascent := ascent
    descent := descent
    glyphs := cur.glyphs ++
      [{ c := ch
         x := max (kern + (m.xmin : ℚ) + cur.width) 0
         y := (m.ymin : ℚ)
         width := m.width
         height := m.height
         font_index := ctx.font_index
         font_size := ctx.font_size
         user := ctx.user }] }

/-- The character loop of `append`, over the engine's line list.  Each
iteration first takes `lines.last_mut().unwrap()` (so `none` if the list is
empty), then: a newline pushes a fresh default line; another control
character is skipped; a drawable character rewrites the last line through
`appendGlyph`. -/
def runChars {U : Type} (ctx : RunCtx U) :
    List Char → List (Line U) → Option (List (Line U))
  | [], lines => some lines
  | ch :: rest, lines =>
    match lines.getLast? with
    | none => none
    | some cur =>
      if ch = '\n' then
        runChars ctx rest (lines ++ [Line.default U])
      else if charIsControl ch then
        runChars ctx rest lines
      else
        runChars ctx rest (lines.dropLast ++ [appendGlyph ctx cur ch])

/-- `Layout::append`.  `none` models a panic: the `fonts[styled.font_index]`
index, the `.unwrap()` of `horizontal_line_metrics` (performed before any
character is examined), or `last_mut().unwrap()` on an empty line list. -/
def Layout.append {U : Type} (fonts : List Font) (styled : StyledText U)
    (l : Layout U) : Option (Layout U) :=
  match fonts[styled.font_index]? with
  | none => none
  | some font =>
    match font.horizontal_line_metrics styled.font_size with
    | none => none
    | some lm =>
      (runChars
          { line_height := l.settings.line_height
            font := font
            font_index := styled.font_index
            font_size := styled.font_size
            user := styled.user
            lm := lm }
          styled.text l.lines).map
        (fun lines => { l with lines := lines })

/-- `Layout::width`: maximum line width, starting from `0.0`. -/
def Layout.width {U : Type} (l : Layout U) : ℚ :=
  l.lines.foldl (fun w line => max line.width w) 0

/-- The loop of `Layout::height`, carrying `(height, lastheight)`. -/
def heightAux {U : Type} : List (Line U) → ℚ → ℚ → ℚ
  | [], height, _ => height
  | line :: rest, height, lastheight =>
    if line.glyphs.isEmpty then heightAux rest (height + lastheight) lastheight
    else heightAux rest (height + line.height) line.height

/-- `Layout::height`. -/
def Layout.height {U : Type} (l : Layout U) : ℚ :=
  heightAux l.lines 0 0

/-- Finalisation of one glyph in `Layout::glyphs`: shift x by the alignment
offset and convert the baseline-relative y to a top-left block coordinate,
`y * -1 + baseline - height`. -/
def place {U : Type} (xoff baseline : ℚ) (g : GlyphPosition U) :
    GlyphPosition U :=
  { g with x := g.x + xoff, y := g.y * (-1) + baseline - (g.height : ℚ) }

/-- The per-line alignment offset of `Layout::glyphs`. -/
def xOffset (align : HorizontalAlign) (width lineWidth : ℚ) : ℚ :=
  match align with
  | .Left => 0
  | .Center => (width - lineWidth) / 2
  | .Right => width - lineWidth

/-- The line loop of `Layout::glyphs`, carrying `(baseline, lastheight)`. -/
def glyphsAux {U : Type} (align : HorizontalAlign) (width : ℚ) :
    List (Line U) → ℚ → ℚ → List (GlyphPosition U)
  | [], _, _ => []
  | line :: rest, baseline, lastheight =>
    if line.glyphs.isEmpty then
      glyphsAux align width rest (baseline + lastheight) lastheight
    else
      line.glyphs.map
          (place (xOffset align width line.width) (baseline + line.ascent)) ++
        glyphsAux align width rest
          (baseline + line.ascent + (-line.descent + line.gap)) line.height

/-- `Layout::glyphs` (the consuming finalize). -/
def Layout.glyphs {U : Type} (l : Layout U) : List (GlyphPosition U) :=
  glyphsAux l.settings.horizontal_align l.width l.lines 0 0

/-- The baseline at which each non-empty line's glyphs are emitted by
`Layout::glyphs` (the successive values of its `baseline` variable after the
`baseline += line.ascent` step), as an observer over the same loop. -/
def baselinesAux {U : Type} : List (Line U) → ℚ → ℚ → List ℚ
  | [], _, _ => []
  | line :: rest, baseline, lastheight =>
    if line.glyphs.isEmpty then baselinesAux rest (baseline + lastheight) lastheight
    else
      (baseline + line.ascent) ::
        baselinesAux rest (baseline + line.ascent + (-line.descent + line.gap))
          line.height

/-- The list of baselines used for the non-empty lines of a layout. -/
def Layout.baselines {U : Type} (l : Layout U) : List ℚ :=
  baselinesAux l.lines 0 0

/-- The layouts reachable through the public interface: `Layout::new`
followed by any sequence of non-panicking `append` calls. -/
inductive Reaches {U : Type} : Layout U → Prop
  | new (s : LayoutSettings) : Reaches (Layout.new s)
  | step {l l' : Layout U} (fonts : List Font) (styled : StyledText U) :
      Reaches l → Layout.append fonts styled l = some l' → Reaches l'

/-- What `append`'s loop does to a single line when the text contains no
newline: a left fold of `appendGlyph` over the drawable characters. -/
def foldLine {U : Type} (ctx : RunCtx U) (cur : Line U) (cs : List Char) :
    Line U :=
  cs.foldl (fun c ch => if charIsControl ch then c else appendGlyph ctx c ch) cur

/-- The invariant of C10: ascent is non-negative, descent non-positive,
gap non-negative. -/
def LineInv {U : Type} (l : Line U) : Prop :=
  0 ≤ l.ascent ∧ l.descent ≤ 0 ∧ 0 ≤ l.gap

theorem runChars_append_chars {U : Type} (ctx : RunCtx U) (cs₁ cs₂ : List Char)
    (lines : List (Line U)) :
    runChars ctx (cs₁ ++ cs₂) lines =
      (runChars ctx cs₁ lines).bind (runChars ctx cs₂) := by
  induction cs₁ generalizing lines with
  | nil => simp [runChars]
  | cons ch rest ih =>
    rw [List.cons_append, runChars, runChars]
    cases h : lines.getLast? with
    | none => rfl
    | some cur =>
      by_cases hnl : ch = '\n'
      · simp only [if_pos hnl]; exact ih _
      · by_cases hc : charIsControl ch
        · simp only [if_neg hnl, if_pos hc]; exact ih _
        · simp only [if_neg hnl, if_neg hc]; exact ih _

theorem runChars_length {U : Type} (ctx : RunCtx U) (cs : List Char)
    (lines out : List (Line U)) (h : runChars ctx cs lines = some out) :
    out.length = lines.length + cs.count '\n' := by
  induction cs generalizing lines with
  | nil =>
    simp only [runChars, Option.some.injEq] at h
    simp [← h]
  | cons ch rest ih =>
    cases hl : lines.getLast? with
    | none => rw [runChars, hl] at h; exact absurd h (by simp)
    | some cur =>
      have hne : lines ≠ [] := by
        intro he; rw [he] at hl; exact absurd hl (by simp)
      by_cases hnl : ch = '\n'
      · rw [runChars, hl] at h
        simp only [if_pos hnl] at h
        have := ih _ h
        subst hnl
        simp only [List.count_cons_self, this, List.length_append,
          List.length_cons, List.length_nil]
        omega
      · have hcount : (ch :: rest).count '\n' = rest.count '\n' := by
          simp [List.count_cons, hnl]
        rw [runChars, hl] at h
        simp only [if_neg hnl] at h
        by_cases hc : charIsControl ch
        · simp only [if_pos hc] at h
          rw [hcount]; exact ih _ h
        · simp only [if_neg hc] at h
          have := ih _ h
          rw [hcount, this]
          simp only [List.length_append, List.length_dropLast,
            List.length_cons, List.length_nil]
          have : 1 ≤ lines.length := List.length_pos.mpr hne
          omega

theorem runChars_no_newline {U : Type} (ctx : RunCtx U) (cs : List Char)
    (done : List (Line U)) (cur : Line U) (h : ∀ c ∈ cs, c ≠ '\n') :
    runChars ctx cs (done ++ [cur]) = some (done ++ [foldLine ctx cur cs]) := by
  induction cs generalizing cur with
  | nil => simp [runChars, foldLine]
  | cons ch rest ih =>
    have hnl : ch ≠ '\n' := h ch (by simp)
    have hrest : ∀ c ∈ rest, c ≠ '\n' := fun c hc => h c (by simp [hc])
    rw [runChars, List.getLast?_concat]
    simp only [if_neg hnl]
    by_cases hc : charIsControl ch
    · simp only [if_pos hc]
      rw [ih cur hrest]
      simp [foldLine, List.foldl_cons, if_pos hc]
    · simp only [if_neg hc, List.dropLast_concat]
      rw [ih _ hrest]
      simp [foldLine, List.foldl_cons, if_neg hc]

theorem foldLine_glyphs_length {U : Type} (ctx : RunCtx U) (cs : List Char)
    (cur : Line U) :
    (foldLine ctx cur cs).glyphs.length =
      cur.glyphs.length + (cs.filter (fun c => !charIsControl c)).length := by
  induction cs generalizing cur with
  | nil => simp [foldLine]
  | cons ch rest ih =>
    by_cases hc : charIsControl ch
    · simp only [foldLine, List.foldl_cons, if_pos hc, List.filter_cons, hc,
        Bool.not_true]
      exact ih cur
    · have hb : (!charIsControl ch) = true := by simp [hc]
      simp only [foldLine, List.foldl_cons, if_neg hc, List.filter_cons, hb,
        if_pos, List.length_cons]
      simp only [foldLine] at ih
      rw [ih (appendGlyph ctx cur ch)]
      simp only [appendGlyph, List.length_append, List.length_cons,
        List.length_nil]
      omega

theorem foldLine_width {U : Type} (ctx : RunCtx U) (cs : List Char)
    (cur : Line U) :
    (foldLine ctx cur cs).width =
      cur.width + ((cs.filter (fun c => !charIsControl c)).map
        (fun ch => (ctx.font.metrics ch ctx.font_size).advance_width)).sum := by
  induction cs generalizing cur with
  | nil => simp [foldLine]
  | cons ch rest ih =>
    by_cases hc : charIsControl ch
    · simp only [foldLine, List.foldl_cons, if_pos hc, List.filter_cons, hc,
        Bool.not_true]
      exact ih cur
    · have hb : (!charIsControl ch) = true := by simp [hc]
      simp only [foldLine, List.foldl_cons, if_neg hc, List.filter_cons, hb,
        if_pos, List.map_cons, List.sum_cons]
      simp only [foldLine] at ih
      rw [ih (appendGlyph ctx cur ch)]
      simp only [appendGlyph]
      ring

theorem appendGlyph_mono {U : Type} (ctx : RunCtx U) (cur : Line U)
    (ch : Char) :
    cur.ascent ≤ (appendGlyph ctx cur ch).ascent ∧
      (appendGlyph ctx cur ch).descent ≤ cur.descent ∧
      cur.gap ≤ (appendGlyph ctx cur ch).gap := by
  simp only [appendGlyph]
  refine ⟨?_, ?_, ?_⟩
  · cases ctx.line_height <;> simp [le_max_left]
  · cases ctx.line_height <;> simp [min_le_left]
  · cases ctx.line_height <;> simp [le_max_left]

theorem appendGlyph_inv {U : Type} (ctx : RunCtx U) (cur : Line U) (ch : Char)
    (h : LineInv cur) : LineInv (appendGlyph ctx cur ch) := by
  obtain ⟨ha, hd, hg⟩ := h
  obtain ⟨ma, md, mg⟩ := appendGlyph_mono ctx cur ch
  exact ⟨le_trans ha ma, le_trans md hd, le_trans hg mg⟩

theorem lineInv_default {U : Type} : LineInv (Line.default U) := by
  refine ⟨le_refl 0, le_refl 0, le_refl 0⟩

theorem runChars_inv {U : Type} (ctx : RunCtx U) (cs : List Char)
    (lines out : List (Line U)) (hinv : ∀ l ∈ lines, LineInv l)
    (h : runChars ctx cs lines = some out) : ∀ l ∈ out, LineInv l := by
  induction cs generalizing lines with
  | nil =>
    simp only [runChars, Option.some.injEq] at h
    rw [← h]; exact hinv
  | cons ch rest ih =>
    cases hl : lines.getLast? with
    | none => rw [runChars, hl] at h; exact absurd h (by simp)
    | some cur =>
      have hcur : LineInv cur := hinv cur (List.mem_of_mem_getLast? hl)
      rw [runChars, hl] at h
      by_cases hnl : ch = '\n'
      · simp only [if_pos hnl] at h
        refine ih _ ?_ h
        intro l hlm
        rcases List.mem_append.mp hlm with hm | hm
        · exact hinv l hm
        · rw [List.mem_singleton.mp hm]; exact lineInv_default
      · simp only [if_neg hnl] at h
        by_cases hc : charIsControl ch
        · simp only [if_pos hc] at h
          exact ih _ hinv h
        · simp only [if_neg hc] at h
          refine ih _ ?_ h
          intro l hlm
          rcases List.mem_append.mp hlm with hm | hm
          · exact hinv l (List.mem_of_mem_dropLast hm)
          · rw [List.mem_singleton.mp hm]
            exact appendGlyph_inv ctx cur ch hcur

theorem append_inv {U : Type} (fonts : List Font) (styled : StyledText U)
    (l l' : Layout U) (hinv : ∀ line ∈ l.lines, LineInv line)
    (h : Layout.append fonts styled l = some l') :
    ∀ line ∈ l'.lines, LineInv line := by
  rw [Layout.append] at h
  cases hf : fonts[styled.font_index]? with
  | none => simp only [hf] at h; exact absurd h (by simp)
  | some font =>
    simp only [hf] at h
    cases hm : font.horizontal_line_metrics styled.font_size with
    | none => simp only [hm] at h; exact absurd h (by simp)
    | some lm =>
      simp only [hm] at h
      cases hr : runChars
          { line_height := l.settings.line_height, font := font,
            font_index := styled.font_index, font_size := styled.font_size,
            user := styled.user, lm := lm } styled.text l.lines with
      | none => simp only [hr] at h; exact absurd h (by simp)
      | some lines =>
        simp only [hr] at h
        have h2 : ({ settings := l.settings, lines := lines } : Layout U) = l' := by
          simpa using h
        rw [← h2]
        exact runChars_inv _ _ _ _ hinv hr

theorem reaches_inv {U : Type} (l : Layout U) (h : Reaches l) :
    ∀ line ∈ l.lines, LineInv line := by
  induction h with
  | new s =>
    intro line hm
    simp only [Layout.new, List.mem_singleton] at hm
    rw [hm]; exact lineInv_default
  | step fonts styled _ happ ih => exact append_inv fonts styled _ _ ih happ

/-- The height of the nearest preceding non-empty line in a prefix of the
line list, or `0` when no non-empty line precedes — the contribution the spec
assigns to an empty line. -/
def lastNonemptyHeight {U : Type} (pre : List (Line U)) : ℚ :=
  match (pre.filter (fun line => !line.glyphs.isEmpty)).getLast? with
  | some line => line.height
  | none => 0

/-- Spec-side reading of `height()`: each line contributes
`ascent - descent + gap`, except that an empty line contributes the height of
the immediately preceding non-empty line (0 when none precedes); `pre` is the
prefix of lines already passed. -/
def heightSpecAux {U : Type} (pre : List (Line U)) : List (Line U) → ℚ
  | [] => 0
  | line :: rest =>
    (if line.glyphs.isEmpty then lastNonemptyHeight pre else line.height) +
      heightSpecAux (pre ++ [line]) rest

/-- Spec-side reading of `Layout::height` (§4.2 of the spec). -/
def Layout.heightSpec {U : Type} (l : Layout U) : ℚ :=
  heightSpecAux [] l.lines

theorem lastNonemptyHeight_append_empty {U : Type} (pre : List (Line U))
    (line : Line U) (h : line.glyphs.isEmpty) :
    lastNonemptyHeight (pre ++ [line]) = lastNonemptyHeight pre := by
  unfold lastNonemptyHeight
  rw [List.filter_append]
  simp [List.filter, h]

theorem lastNonemptyHeight_append_nonempty {U : Type} (pre : List (Line U))
    (line : Line U) (h : ¬line.glyphs.isEmpty) :
    lastNonemptyHeight (pre ++ [line]) = line.height := by
  unfold lastNonemptyHeight
  rw [List.filter_append]
  simp only [List.filter, h]
  simp only [Bool.not_eq_true] at h
  simp [List.filter_cons, h, List.getLast?_concat]

theorem heightAux_spec {U : Type} (lines : List (Line U))
    (pre : List (Line U)) (h : ℚ) :
    heightAux lines h (lastNonemptyHeight pre) =
      h + heightSpecAux pre lines := by
  induction lines generalizing pre h with
  | nil => simp [heightAux, heightSpecAux]
  | cons line rest ih =>
    by_cases he : line.glyphs.isEmpty
    · rw [heightAux, if_pos he, heightSpecAux, if_pos he]
      have hsame := lastNonemptyHeight_append_empty pre line he
      rw [← hsame,
        ih (pre ++ [line]) (h + lastNonemptyHeight (pre ++ [line]))]
      ring
    · rw [heightAux, if_neg he, heightSpecAux, if_neg he]
      have hsame := lastNonemptyHeight_append_nonempty pre line he
      rw [← hsame,
        ih (pre ++ [line]) (h + lastNonemptyHeight (pre ++ [line]))]
      ring

theorem lastNonemptyHeight_nil {U : Type} :
    lastNonemptyHeight ([] : List (Line U)) = 0 := by
  rfl

theorem append_length {U : Type} (fonts : List Font) (styled : StyledText U)
    (l l' : Layout U) (h : Layout.append fonts styled l = some l') :
    l'.lines.length = l.lines.length + styled.text.count '\n' := by
  rw [Layout.append] at h
  cases hf : fonts[styled.font_index]? with
  | none => simp only [hf] at h; exact absurd h (by simp)
  | some font =>
    simp only [hf] at h
    cases hm : font.horizontal_line_metrics styled.font_size with
    | none => simp only [hm] at h; exact absurd h (by simp)
    | some lm =>
      simp only [hm] at h
      cases hr : runChars
          { line_height := l.settings.line_height, font := font,
            font_index := styled.font_index, font_size := styled.font_size,
            user := styled.user, lm := lm } styled.text l.lines with
      | none => simp only [hr] at h; exact absurd h (by simp)
      | some lines =>
        simp only [hr] at h
        have h2 : ({ settings := l.settings, lines := lines } : Layout U) = l' := by
          simpa using h
        rw [← h2]
        exact runChars_length _ _ _ _ hr

theorem reaches_length {U : Type} (l : Layout U) (h : Reaches l) :
    1 ≤ l.lines.length := by
  induction h with
  | new s => simp [Layout.new]
  | step fonts styled _ happ ih =>
    rw [append_length fonts styled _ _ happ]
    omega

/-! Concrete providers used by counterexamples and witnesses. -/

/-- A font whose provider has no horizontal line metrics at any size. -/
def noLmFont : Font :=
  { metrics := fun _ _ => ⟨0, 0, 0, 0, 0⟩
    horizontal_line_metrics := fun _ => none
    horizontal_kern := fun _ _ _ => none }

/-- A simple font: one glyph shape for every character, line metrics
ascent 28, descent −6, line gap 2, no kerning. -/
def rFont : Font :=
  { metrics := fun _ _ => ⟨1, 0, 10, 20, 12⟩
    horizontal_line_metrics := fun _ => some ⟨28, -6, 2⟩
    horizontal_kern := fun _ _ _ => none }

/-- Run context matching `rFont` under `Ratio (1/2)`. -/
def wRatioCtx : RunCtx Unit :=
  { line_height := .Ratio (1/2), font := rFont, font_index := 0,
    font_size := 32, user := (), lm := ⟨28, -6, 2⟩ }

/-! ## C1 (corrected) -/

/-- C1, counterexample: under the `Smallest` (TightFit) policy, with a styled
run whose text is empty, a provider with no line metrics makes `append`
panic (`none`) — the claim says TightFit must not fail at all on missing
line metrics, and that the other policies surface a typed failure rather
than crashing; the source instead calls
`font.horizontal_line_metrics(size).unwrap()` unconditionally before looking
at a single character. -/
theorem smallest_missing_line_metrics_panics_cex :
    Layout.append [noLmFont]
        ({ text := [], font_size := 32, font_index := 0, user := () } :
          StyledText Unit)
        (Layout.new ⟨.Left, .Smallest 1⟩) = none := by
  simp [Layout.append, noLmFont]

/-- C1, amended: whenever the resolved font's provider has no line metrics at
the requested size, `append` panics (returns no layout) under every policy
and for every text — including the empty text — rather than surfacing a
typed failure; no policy is exempt. -/
theorem missing_line_metrics_always_panics {U : Type} (fonts : List Font)
    (styled : StyledText U) (l : Layout U) (font : Font)
    (hf : fonts[styled.font_index]? = some font)
    (hm : font.horizontal_line_metrics styled.font_size = none) :
    Layout.append fonts styled l = none := by
  rw [Layout.append]
  simp only [hf, hm]

/-- Witness for `missing_line_metrics_always_panics` at a concrete input
(FontDefault policy, text "A"). -/
theorem missing_line_metrics_always_panics_witness :
    Layout.append [noLmFont]
        ({ text := ['A'], font_size := 32, font_index := 0, user := () } :
          StyledText Unit)
        (Layout.new ⟨.Left, .Font⟩) = none :=
  missing_line_metrics_always_panics [noLmFont] _ _ noLmFont rfl rfl

/-! ## C2 (corrected) -/

/-- C2, counterexample: under `Ratio (1/2)` with line metrics ascent 28,
descent −6, appending one drawable character leaves the line's gap at `0`:
the claim's formula `(ascent + |descent|) * factor − (ascent + |descent|)`
would give `−17`, and the claim's promised negative gap does not occur —
the source uses the signed sum `ascent + descent` and takes a running `max`
with the previous gap, which started at `0`. -/
theorem ratio_gap_formula_cex :
    (Layout.append [rFont]
          ({ text := ['A'], font_size := 32, font_index := 0, user := () } :
            StyledText Unit)
          (Layout.new ⟨.Left, .Ratio (1/2)⟩)).map
        (fun l => l.lines.map Line.gap) = some [0] ∧
      (28 + |(-6 : ℚ)|) * (1/2) - (28 + |(-6 : ℚ)|) = -17 ∧
      (0 : ℚ) ≠ -17 ∧ ¬((0 : ℚ) < 0) := by
  refine ⟨?_, by norm_num, by norm_num, by norm_num⟩
  simp [Layout.append, Layout.new, rFont, runChars, appendGlyph,
    charIsControl, Line.default]
  norm_num

/-- C2, amended: under `Ratio factor` and `Smallest factor`, every drawable
character sets the line's gap to
`max gap ((ascent + descent) * factor − (ascent + descent))`, where `ascent`
and `descent` are the line's just-updated values and `descent` enters with
its sign (it is non-positive, so the signed sum is `ascent − |descent|`);
and since every line's gap starts at `0` and only grows through `max`, the
gap of a line of any reachable layout is never negative. -/
theorem gap_update_max_signed_sum (U : Type) :
    (∀ (ctx : RunCtx U) (cur : Line U) (ch : Char) (r : ℚ),
        ctx.line_height = .Ratio r ∨ ctx.line_height = .Smallest r →
        (appendGlyph ctx cur ch).gap =
          max cur.gap
            (((appendGlyph ctx cur ch).ascent + (appendGlyph ctx cur ch).descent) * r -
              ((appendGlyph ctx cur ch).ascent + (appendGlyph ctx cur ch).descent))) ∧
      (∀ l : Layout U, Reaches l → ∀ line ∈ l.lines, 0 ≤ line.gap) := by
  constructor
  · intro ctx cur ch r h
    rcases h with h | h <;> simp [appendGlyph, h]
  · intro l hr line hm
    exact (reaches_inv l hr line hm).2.2

/-- Witness for `gap_update_max_signed_sum` at concrete inputs. -/
theorem gap_update_max_signed_sum_witness :
    (appendGlyph wRatioCtx (Line.default Unit) 'A').gap =
        max (Line.default Unit).gap
          (((appendGlyph wRatioCtx (Line.default Unit) 'A').ascent +
              (appendGlyph wRatioCtx (Line.default Unit) 'A').descent) * (1/2) -
            ((appendGlyph wRatioCtx (Line.default Unit) 'A').ascent +
              (appendGlyph wRatioCtx (Line.default Unit) 'A').descent)) ∧
      0 ≤ (Line.default Unit).gap :=
  ⟨(gap_update_max_signed_sum Unit).1 wRatioCtx (Line.default Unit) 'A' (1/2)
      (Or.inl rfl),
    (gap_update_max_signed_sum Unit).2 (Layout.new ⟨.Left, .Ratio (1/2)⟩)
      (Reaches.new _) (Line.default Unit) (by simp [Layout.new])⟩

/-! ## C10 (confirmed) -/

/-- C10: for every layout reachable through `new` and `append`, every line
has non-negative ascent, non-positive descent and non-negative gap; moreover
each drawable character only moves a line's ascent and gap up (running max)
and its descent down (running min). -/
theorem line_metric_invariants (U : Type) :
    (∀ l : Layout U, Reaches l → ∀ line ∈ l.lines,
        0 ≤ line.ascent ∧ line.descent ≤ 0 ∧ 0 ≤ line.gap) ∧
      (∀ (ctx : RunCtx U) (cur : Line U) (ch : Char),
        cur.ascent ≤ (appendGlyph ctx cur ch).ascent ∧
          (appendGlyph ctx cur ch).descent ≤ cur.descent ∧
          cur.gap ≤ (appendGlyph ctx cur ch).gap) :=
  ⟨fun l hr => reaches_inv l hr, fun ctx cur ch => appendGlyph_mono ctx cur ch⟩

/-- Witness for `line_metric_invariants` at concrete inputs. -/
theorem line_metric_invariants_witness :
    (0 ≤ (Line.default Unit).ascent ∧ (Line.default Unit).descent ≤ 0 ∧
        0 ≤ (Line.default Unit).gap) ∧
      ((Line.default Unit).ascent ≤
          (appendGlyph wRatioCtx (Line.default Unit) 'A').ascent ∧
        (appendGlyph wRatioCtx (Line.default Unit) 'A').descent ≤
          (Line.default Unit).descent ∧
        (Line.default Unit).gap ≤
          (appendGlyph wRatioCtx (Line.default Unit) 'A').gap) :=
  ⟨(line_metric_invariants Unit).1 (Layout.new ⟨.Left, .Font⟩)
      (Reaches.new _) (Line.default Unit) (by simp [Layout.new]),
    (line_metric_invariants Unit).2 wRatioCtx (Line.default Unit) 'A'⟩

theorem append_parts {U : Type} (fonts : List Font) (styled : StyledText U)
    (l l' : Layout U) (font : Font) (lm : LineMetrics)
    (hf : fonts[styled.font_index]? = some font)
    (hm : font.horizontal_line_metrics styled.font_size = some lm)
    (h : Layout.append fonts styled l = some l') :
    runChars
        { line_height := l.settings.line_height, font := font,
          font_index := styled.font_index, font_size := styled.font_size,
          user := styled.user, lm := lm } styled.text l.lines =
      some l'.lines ∧ l'.settings = l.settings := by
  rw [Layout.append] at h
  simp only [hf, hm] at h
  cases hr : runChars
      { line_height := l.settings.line_height, font := font,
        font_index := styled.font_index, font_size := styled.font_size,
        user := styled.user, lm := lm } styled.text l.lines with
  | none => simp only [hr] at h; exact absurd h (by simp)
  | some lines =>
    simp only [hr] at h
    have h2 : ({ settings := l.settings, lines := lines } : Layout U) = l' := by
      simpa using h
    rw [← h2]
    exact ⟨rfl, rfl⟩

theorem append_concat {U : Type} (fonts : List Font) (t₁ t₂ : List Char)
    (sz : ℚ) (fi : Nat) (u : U) (l l₁ l₂ : Layout U)
    (h₁ : Layout.append fonts ⟨t₁, sz, fi, u⟩ l = some l₁)
    (h₂ : Layout.append fonts ⟨t₂, sz, fi, u⟩ l₁ = some l₂) :
    Layout.append fonts ⟨t₁ ++ t₂, sz, fi, u⟩ l = some l₂ := by
  obtain ⟨s₂, L₂⟩ := l₂
  rw [Layout.append] at h₁ ⊢
  cases hf : fonts[fi]? with
  | none => rw [hf] at h₁; exact absurd h₁ (by simp)
  | some font =>
    simp only [hf] at h₁ ⊢
    cases hm : font.horizontal_line_metrics sz with
    | none => simp only [hm] at h₁; exact absurd h₁ (by simp)
    | some lm =>
      simp only [hm] at h₁ ⊢
      cases hr₁ : runChars
          { line_height := l.settings.line_height, font := font,
            font_index := fi, font_size := sz, user := u, lm := lm }
          t₁ l.lines with
      | none => simp only [hr₁] at h₁; exact absurd h₁ (by simp)
      | some L₁ =>
        simp only [hr₁] at h₁
        have hl₁ : ({ settings := l.settings, lines := L₁ } : Layout U) = l₁ := by
          simpa using h₁
        subst hl₁
        obtain ⟨hr₂, hs⟩ := append_parts fonts ⟨t₂, sz, fi, u⟩ _ _ font lm hf hm h₂
        simp only at hr₂ hs
        rw [runChars_append_chars, hr₁, Option.some_bind, hr₂]
        simp [hs]

theorem append_elim {U : Type} (fonts : List Font) (styled : StyledText U)
    (l l' : Layout U) (h : Layout.append fonts styled l = some l') :
    ∃ font lm, fonts[styled.font_index]? = some font ∧
      font.horizontal_line_metrics styled.font_size = some lm ∧
      runChars
          { line_height := l.settings.line_height, font := font,
            font_index := styled.font_index, font_size := styled.font_size,
            user := styled.user, lm := lm } styled.text l.lines =
        some l'.lines ∧
      l'.settings = l.settings := by
  rw [Layout.append] at h
  cases hf : fonts[styled.font_index]? with
  | none => rw [hf] at h; exact absurd h (by simp)
  | some font =>
    simp only [hf] at h
    cases hm : font.horizontal_line_metrics styled.font_size with
    | none => simp only [hm] at h; exact absurd h (by simp)
    | some lm =>
      simp only [hm] at h
      cases hr : runChars
          { line_height := l.settings.line_height, font := font,
            font_index := styled.font_index, font_size := styled.font_size,
            user := styled.user, lm := lm } styled.text l.lines with
      | none => simp only [hr] at h; exact absurd h (by simp)
      | some lines =>
        simp only [hr] at h
        have h2 : ({ settings := l.settings, lines := lines } : Layout U) = l' := by
          simpa using h
        refine ⟨font, lm, rfl, hm, ?_, ?_⟩
        · rw [← h2]; exact hr
        · rw [← h2]

/-! Concrete scenario of the spec's §8: single font, ascent 28, descent −6,
line gap 2, text "Hi\nOk". -/

/-- The scenario font: per-character bitmap metrics for 'H', 'i', 'O', 'k',
line metrics ascent 28, descent −6, line gap 2, no kerning data. -/
def testFont : Font :=
  { metrics := fun ch _ =>
      if ch = 'H' then ⟨1, 0, 18, 22, 20⟩
      else if ch = 'i' then ⟨2, 0, 4, 22, 8⟩
      else if ch = 'O' then ⟨1, -1, 20, 23, 22⟩
      else if ch = 'k' then ⟨1, 0, 16, 22, 18⟩
      else ⟨0, 0, 10, 20, 12⟩
    horizontal_line_metrics := fun _ => some ⟨28, -6, 2⟩
    horizontal_kern := fun _ _ _ => none }

def hiOkStyled : StyledText Unit :=
  { text := ['H', 'i', '\n', 'O', 'k'], font_size := 32, font_index := 0,
    user := () }

/-- The layout of "Hi\nOk" under `FontDefault` and Left alignment. -/
def hiOkLayout : Layout Unit :=
  (Layout.append [testFont] hiOkStyled (Layout.new ⟨.Left, .Font⟩)).getD
    (Layout.new ⟨.Left, .Font⟩)

theorem hiOkLayout_append :
    Layout.append [testFont] hiOkStyled (Layout.new ⟨.Left, .Font⟩) =
      some hiOkLayout := by
  simp [hiOkLayout, hiOkStyled, testFont, Layout.append, Layout.new, runChars,
    appendGlyph, charIsControl, Line.default]

/-! ## C7 (confirmed) -/

/-- C7: a non-newline control character is skipped entirely — the engine
state after processing it equals the state before (no glyph, no metric
update, no width advance); and appending a newline-free text to a fresh
engine yields exactly one line whose glyph count is the number of
non-control characters. -/
theorem control_chars_skipped (U : Type) :
    (∀ (ctx : RunCtx U) (ch : Char) (rest : List Char) (lines : List (Line U)),
        lines ≠ [] → charIsControl ch = true → ch ≠ '\n' →
        runChars ctx (ch :: rest) lines = runChars ctx rest lines) ∧
      (∀ (fonts : List Font) (styled : StyledText U) (st : LayoutSettings)
          (l' : Layout U),
        (∀ c ∈ styled.text, c ≠ '\n') →
        Layout.append fonts styled (Layout.new st) = some l' →
        l'.lines.length = 1 ∧
          l'.lines.foldl (fun n line => n + line.glyphs.length) 0 =
            (styled.text.filter (fun c => !charIsControl c)).length) := by
  constructor
  · intro ctx ch rest lines hne hc hnl
    cases hl : lines.getLast? with
    | none => exact absurd (List.getLast?_eq_none_iff.mp hl) hne
    | some cur =>
      conv_lhs => rw [runChars]
      simp only [hl, if_neg hnl, if_pos hc]
  · intro fonts styled st l' hnl happ
    obtain ⟨font, lm, hf, hm, hr, -⟩ := append_elim fonts styled _ l' happ
    have hnew : (Layout.new st : Layout U).lines = [] ++ [Line.default U] := by
      simp [Layout.new]
    rw [show (Layout.new st : Layout U).lines = [] ++ [Line.default U] from
      hnew] at hr
    rw [runChars_no_newline _ styled.text [] (Line.default U) hnl] at hr
    have hlines : l'.lines = [foldLine
        { line_height := (Layout.new st : Layout U).settings.line_height,
          font := font, font_index := styled.font_index,
          font_size := styled.font_size, user := styled.user, lm := lm }
        (Line.default U) styled.text] := by
      have := hr
      simp only [List.nil_append, Option.some.injEq] at this
      rw [this]
    rw [hlines]
    constructor
    · rfl
    · simp only [List.foldl_cons, List.foldl_nil, Nat.zero_add]
      rw [foldLine_glyphs_length]
      simp [Line.default]

/-- Run context matching `testFont` under the `Font` policy. -/
def kCtxW : RunCtx Unit :=
  { line_height := .Font, font := testFont, font_index := 0, font_size := 32,
    user := (), lm := ⟨28, -6, 2⟩ }

def ctrlStyledW : StyledText Unit :=
  { text := ['A', '\t', 'B'], font_size := 32, font_index := 0, user := () }

/-- The layout of "A\tB" (tab is a non-newline control character). -/
def ctrlLayoutW : Layout Unit :=
  (Layout.append [testFont] ctrlStyledW (Layout.new ⟨.Left, .Font⟩)).getD
    (Layout.new ⟨.Left, .Font⟩)

theorem ctrlLayoutW_append :
    Layout.append [testFont] ctrlStyledW (Layout.new ⟨.Left, .Font⟩) =
      some ctrlLayoutW := by
  simp [ctrlLayoutW, ctrlStyledW, testFont, Layout.append, Layout.new,
    runChars, appendGlyph, charIsControl, Line.default]

/-- Witness for `control_chars_skipped`: the tab character (U+0009) between
'A' and 'B'. -/
theorem control_chars_skipped_witness :
    (runChars kCtxW ('\t' :: ['B']) [Line.default Unit] =
        runChars kCtxW ['B'] [Line.default Unit]) ∧
      (ctrlLayoutW.lines.length = 1 ∧
        ctrlLayoutW.lines.foldl (fun n line => n + line.glyphs.length) 0 =
          (['A', '\t', 'B'].filter (fun c => !charIsControl c)).length) :=
  ⟨(control_chars_skipped Unit).1 kCtxW '\t' ['B'] [Line.default Unit]
      (by simp) (by decide) (by decide),
    (control_chars_skipped Unit).2 [testFont] ctrlStyledW
      ⟨.Left, .Font⟩ ctrlLayoutW (by decide) ctrlLayoutW_append⟩

/-! ## C8 (confirmed) -/

/-- C8: a fresh engine has exactly one line; every reachable engine has at
least one line; a successful `append` grows the line count by exactly the
number of newline characters in the run (so lines are never removed); hence
appending a run with N newlines to a fresh engine yields N + 1 lines. -/
theorem line_count (U : Type) :
    (∀ st : LayoutSettings, (Layout.new st : Layout U).lines.length = 1) ∧
      (∀ l : Layout U, Reaches l → 1 ≤ l.lines.length) ∧
      (∀ (fonts : List Font) (styled : StyledText U) (l l' : Layout U),
        Layout.append fonts styled l = some l' →
        l'.lines.length = l.lines.length + styled.text.count '\n') ∧
      (∀ (fonts : List Font) (styled : StyledText U) (st : LayoutSettings)
          (l' : Layout U),
        Layout.append fonts styled (Layout.new st) = some l' →
        l'.lines.length = styled.text.count '\n' + 1) := by
  refine ⟨fun st => by simp [Layout.new], reaches_length, append_length, ?_⟩
  intro fonts styled st l' h
  rw [append_length fonts styled _ _ h]
  simp only [Layout.new, List.length_singleton]
  omega

/-- Witness for `line_count`: "Hi\nOk" has one newline and yields two
lines. -/
theorem line_count_witness :
    hiOkLayout.lines.length =
      (['H', 'i', '\n', 'O', 'k'].count '\n') + 1 :=
  (line_count Unit).2.2.2 [testFont] hiOkStyled ⟨.Left, .Font⟩ hiOkLayout
    hiOkLayout_append

/-! ## C6 (confirmed) -/

/-- C6: the running width advances by the glyph's advance width
unconditionally — the `max(0, ·)` clamp on the glyph's x position does not
feed back into it; consequently appending "A" and then "BB" (same font
collection, size, index and payload, no newlines) gives the same `width()`
as appending "ABB" in one call. -/
theorem width_accumulates (U : Type) :
    (∀ (ctx : RunCtx U) (cur : Line U) (ch : Char),
        (appendGlyph ctx cur ch).width =
          cur.width + (ctx.font.metrics ch ctx.font_size).advance_width) ∧
      (∀ (fonts : List Font) (t₁ t₂ : List Char) (sz : ℚ) (fi : Nat) (u : U)
          (l l₁ l₂ l₁₂ : Layout U),
        Layout.append fonts ⟨t₁, sz, fi, u⟩ l = some l₁ →
        Layout.append fonts ⟨t₂, sz, fi, u⟩ l₁ = some l₂ →
        Layout.append fonts ⟨t₁ ++ t₂, sz, fi, u⟩ l = some l₁₂ →
        l₂.width = l₁₂.width) := by
  constructor
  · intro ctx cur ch
    simp [appendGlyph]
  · intro fonts t₁ t₂ sz fi u l l₁ l₂ l₁₂ h₁ h₂ h₁₂
    have hcat := append_concat fonts t₁ t₂ sz fi u l l₁ l₂ h₁ h₂
    rw [hcat] at h₁₂
    injection h₁₂ with h
    rw [h]

def abStyledA : StyledText Unit :=
  { text := ['A'], font_size := 32, font_index := 0, user := () }

def abStyledBB : StyledText Unit :=
  { text := ['B', 'B'], font_size := 32, font_index := 0, user := () }

def abStyledABB : StyledText Unit :=
  { text := ['A', 'B', 'B'], font_size := 32, font_index := 0, user := () }

def abL₁ : Layout Unit :=
  (Layout.append [rFont] abStyledA (Layout.new ⟨.Left, .Font⟩)).getD
    (Layout.new ⟨.Left, .Font⟩)

def abL₂ : Layout Unit :=
  (Layout.append [rFont] abStyledBB abL₁).getD abL₁

def abL₁₂ : Layout Unit :=
  (Layout.append [rFont] abStyledABB (Layout.new ⟨.Left, .Font⟩)).getD
    (Layout.new ⟨.Left, .Font⟩)

theorem abL₁_append :
    Layout.append [rFont] abStyledA (Layout.new ⟨.Left, .Font⟩) = some abL₁ := by
  simp [abL₁, abStyledA, rFont, Layout.append, Layout.new, runChars,
    appendGlyph, charIsControl, Line.default]

theorem abL₂_append : Layout.append [rFont] abStyledBB abL₁ = some abL₂ := by
  simp [abL₂, abL₁, abStyledA, abStyledBB, rFont, Layout.append, Layout.new,
    runChars, appendGlyph, charIsControl, Line.default]

theorem abL₁₂_append :
    Layout.append [rFont] abStyledABB (Layout.new ⟨.Left, .Font⟩) =
      some abL₁₂ := by
  simp [abL₁₂, abStyledABB, rFont, Layout.append, Layout.new, runChars,
    appendGlyph, charIsControl, Line.default]

/-- Witness for `width_accumulates` at the claim's concrete inputs. -/
theorem width_accumulates_witness :
    ((appendGlyph wRatioCtx (Line.default Unit) 'A').width =
        (Line.default Unit).width + (rFont.metrics 'A' 32).advance_width) ∧
      abL₂.width = abL₁₂.width :=
  ⟨(width_accumulates Unit).1 wRatioCtx (Line.default Unit) 'A',
    (width_accumulates Unit).2 [rFont] ['A'] ['B', 'B'] 32 0 ()
      (Layout.new ⟨.Left, .Font⟩) abL₁ abL₂ abL₁₂
      abL₁_append abL₂_append abL₁₂_append⟩

/-! ## C5 (confirmed) -/

/-- A font declaring kerning −3 for every pair, with glyph xmin 1. -/
def kernFont : Font :=
  { metrics := fun _ _ => ⟨1, 0, 10, 20, 12⟩
    horizontal_line_metrics := fun _ => some ⟨28, -6, 2⟩
    horizontal_kern := fun _ _ _ => some (-3) }

/-- Run context matching `kernFont` under the `Font` policy. -/
def kCtx : RunCtx Unit :=
  { line_height := .Font, font := kernFont, font_index := 0, font_size := 32,
    user := (), lm := ⟨28, -6, 2⟩ }

/-- A line holding one glyph ('A') with accumulated width 10. -/
def kLine : Line Unit :=
  { width := 10, gap := 2, ascent := 28, descent := -6,
    glyphs := [⟨'A', 0, 0, 10, 20, 0, 32, ()⟩] }

/-- C5: the glyph pushed for a drawable character has line-relative
x = max(0, kerning + xmin + width-so-far), where the kerning term is the
provider's value for (previous glyph, this char) and is 0 for the first
glyph of the line (no previous glyph) — the `getD 0` default covers a
provider with no kerning data; concretely, kerning −3 with xmin 1 and
preceding width 10 yields x = 8. -/
theorem glyph_x_clamped (U : Type) :
    (∀ (ctx : RunCtx U) (cur : Line U) (ch : Char) (last : GlyphPosition U),
        cur.glyphs.getLast? = some last →
        ((appendGlyph ctx cur ch).glyphs.getLast?).map GlyphPosition.x =
          some (max 0
            ((ctx.font.horizontal_kern last.c ch ctx.font_size).getD 0 +
              ((ctx.font.metrics ch ctx.font_size).xmin : ℚ) + cur.width))) ∧
      (∀ (ctx : RunCtx U) (cur : Line U) (ch : Char),
        cur.glyphs.getLast? = none →
        ((appendGlyph ctx cur ch).glyphs.getLast?).map GlyphPosition.x =
          some (max 0
            (((ctx.font.metrics ch ctx.font_size).xmin : ℚ) + cur.width))) ∧
      (((appendGlyph kCtx kLine 'V').glyphs.getLast?).map GlyphPosition.x =
          some 8 ∧ (8 : ℚ) = max 0 (-3 + 1 + 10)) := by
  refine ⟨?_, ?_, ?_, by norm_num⟩
  · intro ctx cur ch last h
    simp [appendGlyph, h, List.getLast?_concat, max_comm]
  · intro ctx cur ch h
    simp [appendGlyph, h, List.getLast?_concat, max_comm]
  · simp [appendGlyph, kCtx, kernFont, kLine, List.getLast?_concat]
    norm_num

/-- Witness for `glyph_x_clamped` at concrete inputs: a line with a previous
glyph and provider kerning −3, and an empty line (kerning 0). -/
theorem glyph_x_clamped_witness :
    (((appendGlyph kCtx kLine 'V').glyphs.getLast?).map GlyphPosition.x =
        some (max 0
          ((kernFont.horizontal_kern 'A' 'V' 32).getD 0 +
            ((kernFont.metrics 'V' 32).xmin : ℚ) + kLine.width))) ∧
      (((appendGlyph kCtx (Line.default Unit) 'V').glyphs.getLast?).map
          GlyphPosition.x =
        some (max 0
          (((kernFont.metrics 'V' 32).xmin : ℚ) + (Line.default Unit).width))) :=
  ⟨(glyph_x_clamped Unit).1 kCtx kLine 'V' ⟨'A', 0, 0, 10, 20, 0, 32, ()⟩ rfl,
    (glyph_x_clamped Unit).2.1 kCtx (Line.default Unit) 'V' rfl⟩

/-! ## C4 (confirmed) -/

/-- C4: `height()` equals the spec's sum — each line contributes
`ascent − descent + gap`, except that a line with no glyphs contributes the
height of the immediately preceding non-empty line, and a leading empty line
with no preceding non-empty line contributes 0 (`Layout.heightSpec` encodes
exactly that reading). -/
theorem height_eq_heightSpec {U : Type} (l : Layout U) :
    Layout.height l = Layout.heightSpec l := by
  rw [Layout.height, Layout.heightSpec]
  have h := heightAux_spec l.lines ([] : List (Line U)) 0
  rw [lastNonemptyHeight_nil] at h
  rw [h]
  ring

/-! ## C3 (confirmed) -/

/-- C3: in `glyphs()`, a non-empty line is emitted at baseline
`b + line.ascent` (the baseline advances by the ascent first) and the loop
continues at `b + line.ascent + (−descent + gap)`; every emitted glyph's
y is `relative_y * −1 + baseline − glyph.height`; and in the concrete
"Hi\nOk" scenario (ascent 28, descent −6, gap 2, FontDefault) the two
baselines are 28 and 64, giving glyph y-coordinates 6, 6, 42, 42. -/
theorem finalize_baseline_advance (U : Type) :
    (∀ (align : HorizontalAlign) (w : ℚ) (line : Line U)
        (rest : List (Line U)) (b lh : ℚ), line.glyphs.isEmpty = false →
        glyphsAux align w (line :: rest) b lh =
          line.glyphs.map
              (place (xOffset align w line.width) (b + line.ascent)) ++
            glyphsAux align w rest
              (b + line.ascent + (-line.descent + line.gap)) line.height) ∧
      (∀ (g : GlyphPosition U) (xoff b : ℚ),
        (place xoff b g).y = g.y * (-1) + b - (g.height : ℚ)) ∧
      (hiOkLayout.baselines = [28, 64] ∧
        hiOkLayout.glyphs =
          [⟨'H', 1, 6, 18, 22, 0, 32, ()⟩, ⟨'i', 22, 6, 4, 22, 0, 32, ()⟩,
            ⟨'O', 1, 42, 20, 23, 0, 32, ()⟩,
            ⟨'k', 23, 42, 16, 22, 0, 32, ()⟩]) := by
  refine ⟨?_, ?_, ?_, ?_⟩
  · intro align w line rest b lh h
    conv_lhs => rw [glyphsAux]
    simp [h]
  · intro g xoff b
    simp [place]
  · simp [hiOkLayout, hiOkStyled, testFont, Layout.append, Layout.new,
      runChars, appendGlyph, charIsControl, Line.default, Layout.baselines,
      baselinesAux, Line.height]
    norm_num
  · simp [hiOkLayout, hiOkStyled, testFont, Layout.append, Layout.new,
      runChars, appendGlyph, charIsControl, Line.default, Layout.glyphs,
      glyphsAux, Layout.width, place, xOffset, Line.height]
    norm_num

/-- Witness for `finalize_baseline_advance` at a concrete non-empty line. -/
theorem finalize_baseline_advance_witness :
    (glyphsAux .Left 10 [kLine] 0 0 =
        kLine.glyphs.map
            (place (xOffset .Left 10 kLine.width) (0 + kLine.ascent)) ++
          glyphsAux .Left 10 []
            (0 + kLine.ascent + (-kLine.descent + kLine.gap)) kLine.height) ∧
      (place 3 28 (⟨'A', 0, 0, 10, 20, 0, 32, ()⟩ : GlyphPosition Unit)).y =
        (0 : ℚ) * (-1) + 28 - (20 : ℚ) :=
  ⟨(finalize_baseline_advance Unit).1 .Left 10 kLine [] 0 0 rfl,
    (finalize_baseline_advance Unit).2.1 ⟨'A', 0, 0, 10, 20, 0, 32, ()⟩ 3 28⟩

/-- A non-empty line of width 20 (witness data). -/
def wLine₁ : Line Unit :=
  { width := 20, gap := 2, ascent := 28, descent := -6,
    glyphs := [⟨'A', 1, 0, 10, 20, 0, 32, ()⟩] }

/-- A non-empty line of width 10 (witness data). -/
def wLine₂ : Line Unit :=
  { width := 10, gap := 2, ascent := 28, descent := -6,
    glyphs := [⟨'B', 2, 0, 8, 20, 0, 32, ()⟩] }

/-! ## C9 (confirmed) -/

/-- C9: with a single line (of non-negative width) the alignment offset is 0
under all three alignments — the finalized glyphs coincide with the
Left-aligned ones; with two non-empty lines where the second is strictly
narrower, `width()` is the wider line's width, the wider line gets offset 0
under every alignment, and each glyph of the narrower line is shifted right,
relative to Left alignment, by exactly `blockWidth − lineWidth` under Right
and by `(blockWidth − lineWidth) / 2` under Center. -/
theorem alignment_offsets (U : Type) :
    (∀ (lh : LineHeight) (align : HorizontalAlign) (l₁ : Line U),
        0 ≤ l₁.width →
        Layout.glyphs (⟨⟨align, lh⟩, [l₁]⟩ : Layout U) =
          Layout.glyphs (⟨⟨.Left, lh⟩, [l₁]⟩ : Layout U)) ∧
      (∀ (lh : LineHeight) (l₁ l₂ : Line U),
        0 ≤ l₂.width → l₂.width < l₁.width →
        l₁.glyphs.isEmpty = false → l₂.glyphs.isEmpty = false →
        Layout.width (⟨⟨.Left, lh⟩, [l₁, l₂]⟩ : Layout U) = l₁.width ∧
        Layout.glyphs (⟨⟨.Left, lh⟩, [l₁, l₂]⟩ : Layout U) =
          l₁.glyphs.map (place 0 l₁.ascent) ++
            l₂.glyphs.map
              (place 0 (l₁.ascent + (-l₁.descent + l₁.gap) + l₂.ascent)) ∧
        Layout.glyphs (⟨⟨.Right, lh⟩, [l₁, l₂]⟩ : Layout U) =
          l₁.glyphs.map (place 0 l₁.ascent) ++
            l₂.glyphs.map
              (place (l₁.width - l₂.width)
                (l₁.ascent + (-l₁.descent + l₁.gap) + l₂.ascent)) ∧
        Layout.glyphs (⟨⟨.Center, lh⟩, [l₁, l₂]⟩ : Layout U) =
          l₁.glyphs.map (place 0 l₁.ascent) ++
            l₂.glyphs.map
              (place ((l₁.width - l₂.width) / 2)
                (l₁.ascent + (-l₁.descent + l₁.gap) + l₂.ascent))) := by
  constructor
  · intro lh align l₁ hw
    rw [Layout.glyphs, Layout.glyphs]
    have hmax : max l₁.width 0 = l₁.width := max_eq_left hw
    simp only [Layout.width, List.foldl_cons, List.foldl_nil, hmax]
    by_cases h : l₁.glyphs.isEmpty
    · simp [glyphsAux, h]
    · simp only [glyphsAux, h, Bool.false_eq_true, if_false, if_neg]
      cases align <;> simp [xOffset]
  · intro lh l₁ l₂ h2w hlt h1ne h2ne
    have h1w : (0 : ℚ) ≤ l₁.width := le_of_lt (lt_of_le_of_lt h2w hlt)
    have hmax1 : max l₁.width 0 = l₁.width := max_eq_left h1w
    have hmax2 : max l₂.width l₁.width = l₁.width := max_eq_right (le_of_lt hlt)
    have hW : ∀ a : HorizontalAlign,
        Layout.width (⟨⟨a, lh⟩, [l₁, l₂]⟩ : Layout U) = l₁.width := by
      intro a
      simp only [Layout.width, List.foldl_cons, List.foldl_nil, hmax1, hmax2]
    refine ⟨hW .Left, ?_, ?_, ?_⟩ <;>
      · rw [Layout.glyphs, hW]
        simp [glyphsAux, h1ne, h2ne, xOffset, Line.height]

/-- Witness for `alignment_offsets` at concrete lines of widths 20 and 10. -/
theorem alignment_offsets_witness :
    (Layout.glyphs (⟨⟨.Right, .Font⟩, [wLine₁]⟩ : Layout Unit) =
        Layout.glyphs (⟨⟨.Left, .Font⟩, [wLine₁]⟩ : Layout Unit)) ∧
      Layout.glyphs (⟨⟨.Right, .Font⟩, [wLine₁, wLine₂]⟩ : Layout Unit) =
        wLine₁.glyphs.map (place 0 wLine₁.ascent) ++
          wLine₂.glyphs.map
            (place (wLine₁.width - wLine₂.width)
              (wLine₁.ascent + (-wLine₁.descent + wLine₁.gap) +
                wLine₂.ascent)) :=
  ⟨(alignment_offsets Unit).1 .Font .Right wLine₁ (by norm_num [wLine₁]),
    ((alignment_offsets Unit).2 .Font wLine₁ wLine₂ (by norm_num [wLine₂])
        (by norm_num [wLine₁, wLine₂]) rfl rfl).2.2.1⟩

end Fontster
